import Mathlib

/-!
Verification of the LRU cache in `src/lru/lru.go`.

Modelling conventions (shallow embedding of the Go source):

* The `container/list` doubly-linked list `ll` becomes the Lean list
  `order`; the list front is the most-recently-used end, the back the
  least-recently-used end, exactly as in the source.
* The Go map `cache : map[string]*list.Element` stores pointers into `ll`.
  After pointer erasure it becomes the list `index` of resident keys, and
  dereferencing a stored element becomes looking that key up in `order`
  (the map only ever holds pointers to live nodes of `ll`: every map
  insert is paired with a `PushFront` and every map delete with a list
  `Remove`).
* The `Value` interface (`Len() int`) becomes a type parameter `V`
  together with a size function `vlen : V → Nat`; the collaborator
  contract in the spec requires `Len` to be a pure, non-negative size.
  `maxBytes` and `nbytes` are Go `int64`, modelled as `Int` (an `int64`
  overflow would need more than 2^63 bytes of resident data and is not
  reachable for an in-memory cache, so wrap-around is not modelled).
* The `OnEvicted` callback is modelled observationally: `RemoveOldest`
  (and hence `Add`) additionally returns the `(key, value)` pairs the
  callback is invoked on, in invocation order.  The callback fires after
  the entry has been removed and `nbytes` decremented, which the model
  reflects by pairing each event with the already-updated state.
* The unbounded `for` loop at the end of `Add` is modelled with explicit
  fuel `order.length`, which is enough iterations for every terminating
  run of the Go loop; divergence of the Go loop (negative `maxBytes`) is
  analysed separately through unguarded iteration of the loop body.
-/

namespace LRU

/-- One cached item: `type entry struct { key string; value Value }`. -/
structure Entry (V : Type) where
  key : String
  value : V
deriving DecidableEq

/-- The cache state: `maxBytes`, `nbytes`, the recency list `ll` (here
`order`, front = MRU) and the key map `cache` (here `index`, pointer
erased to the list of resident keys). -/
structure Cache (V : Type) where
  maxBytes : Int
  nbytes : Int
  order : List (Entry V)
  index : List String
deriving DecidableEq

variable {V : Type}

/-- Size contribution of one entry to the budget:
`int64(len(kv.key) + kv.value.Len())`. -/
def Entry.size (vlen : V → Nat) (e : Entry V) : Int :=
  (e.key.length : Int) + (vlen e.value : Int)

/-- Keys of the entries of a recency list, front first. -/
def keysOf (order : List (Entry V)) : List String :=
  order.map Entry.key

/-- Total size of the entries of a recency list. -/
def sizeSum (vlen : V → Nat) (order : List (Entry V)) : Int :=
  (order.map (Entry.size vlen)).sum

/-- `New(maxBytes, onEvicted)`: empty cache with the given byte budget
(the callback is modelled observationally, so it is not part of the
state). -/
def new (maxBytes : Int) : Cache V :=
  { maxBytes := maxBytes, nbytes := 0, order := [], index := [] }

/-- `Get(key)`: on a map hit, `MoveToFront` the element the map points to
and return its value; on a miss return the zero values and leave the
state untouched. -/
def get (c : Cache V) (k : String) : Option V × Cache V :=
  if c.index.contains k then
    match c.order.find? (fun e => e.key == k) with
    | some e =>
        (some e.value,
          { c with order := e :: c.order.eraseP (fun e2 => e2.key == k) })
    | none => (none, c)
  else (none, c)

/-- `RemoveOldest()`: if `ll.Back()` is non-nil, remove that element from
the list, delete its key from the map and subtract its size from
`nbytes`; the second component is the `(key, value)` pair `OnEvicted`
fires on (after the state update), `none` when the cache was empty. -/
def removeOldest (vlen : V → Nat) (c : Cache V) : Cache V × Option (String × V) :=
  match c.order.getLast? with
  | none => (c, none)
  | some kv =>
      ({ c with
          order := c.order.dropLast,
          index := c.index.filter (fun k2 => !(k2 == kv.key)),
          nbytes := c.nbytes - Entry.size vlen kv },
        some (kv.key, kv.value))

/-- Guard of the eviction loop in `Add`:
`c.maxBytes != 0 && c.maxBytes < c.nbytes`. -/
def loopCond (c : Cache V) : Bool :=
  c.maxBytes != 0 && decide (c.maxBytes < c.nbytes)

/-- The `if`/`else` of `Add` before the eviction loop.  On a map hit the
source runs `MoveToFront(ele)` and then assigns `kv.value = value`
through the shared pointer, which leaves the list as the updated entry
followed by the remaining entries; on a miss it runs `PushFront` and
inserts the key into the map. -/
def addCore (vlen : V → Nat) (c : Cache V) (k : String) (v : V) : Cache V :=
  if c.index.contains k then
    match c.order.find? (fun e => e.key == k) with
    | some old =>
        { c with
            order := ⟨k, v⟩ :: c.order.eraseP (fun e2 => e2.key == k),
            nbytes := c.nbytes + ((vlen v : Int) - (vlen old.value : Int)) }
    | none => c
  else
    { c with
        order := ⟨k, v⟩ :: c.order,
        index := k :: c.index,
        nbytes := c.nbytes + ((k.length : Int) + (vlen v : Int)) }

/-- The eviction loop of `Add`, with explicit fuel:
`for c.maxBytes != 0 && c.maxBytes < c.nbytes { c.RemoveOldest() }`,
collecting the callback events of every `RemoveOldest`. -/
def evictLoop (vlen : V → Nat) : Nat → Cache V → Cache V × List (String × V)
  | 0, c => (c, [])
  | n + 1, c =>
      if loopCond c then
        let s := removeOldest vlen c
        let r := evictLoop vlen n s.1
        (r.1, s.2.toList ++ r.2)
      else (c, [])

/-- `Add(key, value)`: insert or update, then run the eviction loop.
Fuel `order.length` after the insert covers every terminating run of the
Go loop (each iteration on a non-empty cache removes one entry, and once
the cache is empty a well-formed state with non-negative budget fails the
guard). -/
def add (vlen : V → Nat) (c : Cache V) (k : String) (v : V) :
    Cache V × List (String × V) :=
  evictLoop vlen (addCore vlen c k v).order.length (addCore vlen c k v)

/-- `Len()`: number of resident entries. -/
def len (c : Cache V) : Nat :=
  c.order.length

/-- One unguarded iteration of the eviction loop body, used to analyse
the Go loop's behaviour beyond any finite fuel. -/
def evictStep (vlen : V → Nat) (c : Cache V) : Cache V :=
  (removeOldest vlen c).1

/-- Run a sequence of `Add` operations, collecting all eviction events. -/
def addSeq (vlen : V → Nat) (c : Cache V) : List (String × V) → Cache V × List (String × V)
  | [] => (c, [])
  | (k, v) :: ps =>
      let s := add vlen c k v
      let r := addSeq vlen s.1 ps
      (r.1, s.2 ++ r.2)

/-- Representation invariant relating `order`, `index` and `nbytes`
(spec §3): resident keys are pairwise distinct, `index` holds exactly
the keys of `order`, and `nbytes` is the exact total size of the
resident entries. -/
def WF (vlen : V → Nat) (c : Cache V) : Prop :=
  (keysOf c.order).Nodup ∧
  c.index.Nodup ∧
  (∀ k ∈ c.index, k ∈ keysOf c.order) ∧
  (∀ e ∈ c.order, e.key ∈ c.index) ∧
  c.nbytes = sizeSum vlen c.order

instance (vlen : V → Nat) [DecidableEq V] (c : Cache V) : Decidable (WF vlen c) := by
  unfold WF
  infer_instance

/-! ### Basic lemmas about keys and sizes -/

variable {vlen : V → Nat} {c : Cache V}

theorem keysOf_cons (e : Entry V) (l : List (Entry V)) :
    keysOf (e :: l) = e.key :: keysOf l := rfl

theorem keysOf_append (l₁ l₂ : List (Entry V)) :
    keysOf (l₁ ++ l₂) = keysOf l₁ ++ keysOf l₂ :=
  List.map_append _ _ _

theorem keysOf_length (l : List (Entry V)) : (keysOf l).length = l.length :=
  List.length_map _ _

theorem mem_keysOf {k : String} {l : List (Entry V)} :
    k ∈ keysOf l ↔ ∃ e ∈ l, e.key = k := by
  simp [keysOf, List.mem_map]

theorem sizeSum_nil : sizeSum vlen ([] : List (Entry V)) = 0 := rfl

theorem sizeSum_cons (e : Entry V) (l : List (Entry V)) :
    sizeSum vlen (e :: l) = Entry.size vlen e + sizeSum vlen l := by
  simp [sizeSum]

theorem sizeSum_append (l₁ l₂ : List (Entry V)) :
    sizeSum vlen (l₁ ++ l₂) = sizeSum vlen l₁ + sizeSum vlen l₂ := by
  simp [sizeSum]

theorem entry_size_nonneg (vlen : V → Nat) (e : Entry V) : 0 ≤ Entry.size vlen e := by
  unfold Entry.size
  positivity

theorem sizeSum_nonneg (vlen : V → Nat) (l : List (Entry V)) : 0 ≤ sizeSum vlen l := by
  refine List.sum_nonneg ?_
  intro x hx
  rw [List.mem_map] at hx
  obtain ⟨e, -, rfl⟩ := hx
  exact entry_size_nonneg vlen e

theorem size_le_sizeSum {e : Entry V} {l : List (Entry V)} (h : e ∈ l) :
    Entry.size vlen e ≤ sizeSum vlen l := by
  refine List.single_le_sum ?_ _ (List.mem_map_of_mem _ h)
  intro x hx
  rw [List.mem_map] at hx
  obtain ⟨e2, -, rfl⟩ := hx
  exact entry_size_nonneg vlen e2

theorem sizeSum_perm {l₁ l₂ : List (Entry V)} (h : l₁.Perm l₂) :
    sizeSum vlen l₁ = sizeSum vlen l₂ :=
  (h.map _).sum_eq

/-! ### find? / eraseP / getLast? plumbing -/

theorem perm_of_find?_eraseP {α : Type} {p : α → Bool} {l : List α} {a : α}
    (h : l.find? p = some a) : l.Perm (a :: l.eraseP p) := by
  induction l with
  | nil => simp at h
  | cons b t ih =>
    by_cases hb : p b
    · rw [List.find?_cons_of_pos _ hb] at h
      injection h with h
      subst h
      rw [List.eraseP_cons_of_pos hb]
    · rw [List.find?_cons_of_neg _ (by simpa using hb)] at h
      rw [List.eraseP_cons_of_neg (by simpa using hb)]
      exact ((ih h).cons b).trans (List.Perm.swap a b _)

theorem find?_key_eq {l : List (Entry V)} {k : String} {e : Entry V}
    (h : l.find? (fun e2 => e2.key == k) = some e) : e.key = k := by
  have := List.find?_some h
  simpa using this

theorem find?_key_mem {l : List (Entry V)} {k : String} {e : Entry V}
    (h : l.find? (fun e2 => e2.key == k) = some e) : e ∈ l :=
  List.mem_of_find?_eq_some h

theorem find?_key_of_mem {l : List (Entry V)} {k : String} (h : k ∈ keysOf l) :
    ∃ e, l.find? (fun e2 => e2.key == k) = some e := by
  cases hf : l.find? (fun e2 => e2.key == k) with
  | some e => exact ⟨e, rfl⟩
  | none =>
    rw [List.find?_eq_none] at hf
    rw [mem_keysOf] at h
    obtain ⟨e, he, hk⟩ := h
    exact absurd (by simpa using hk) (hf e he)

theorem getLast?_decomp {α : Type} {l : List α} {a : α} (h : l.getLast? = some a) :
    l.dropLast ++ [a] = l := by
  have hne : l ≠ [] := by intro he; simp [he] at h
  rw [List.getLast?_eq_getLast _ hne, Option.some_inj] at h
  rw [← h]
  exact List.dropLast_append_getLast hne

/-! ### The representation invariant is preserved by every operation -/

theorem WF.keys_nodup (hwf : WF vlen c) : (keysOf c.order).Nodup := hwf.1

theorem WF.bytes_eq (hwf : WF vlen c) : c.nbytes = sizeSum vlen c.order :=
  hwf.2.2.2.2

theorem WF.mem_index_iff (hwf : WF vlen c) (k : String) :
    k ∈ c.index ↔ k ∈ keysOf c.order := by
  obtain ⟨-, -, h1, h2, -⟩ := hwf
  constructor
  · exact h1 k
  · intro hk
    rw [mem_keysOf] at hk
    obtain ⟨e, he, rfl⟩ := hk
    exact h2 e he

theorem WF.contains_iff (hwf : WF vlen c) (k : String) :
    c.index.contains k = true ↔ k ∈ keysOf c.order := by
  constructor
  · intro h
    exact (hwf.mem_index_iff k).mp (by simpa using h)
  · intro h
    simpa using (hwf.mem_index_iff k).mpr h

theorem WF.card_eq (hwf : WF vlen c) : c.index.length = c.order.length := by
  have hperm : c.index.Perm (keysOf c.order) := by
    rw [List.perm_ext_iff_of_nodup hwf.2.1 hwf.1]
    exact hwf.mem_index_iff
  rw [hperm.length_eq, keysOf_length]

theorem wf_new (mb : Int) : WF vlen (new (V := V) mb) := by
  refine ⟨?_, ?_, ?_, ?_, ?_⟩ <;> simp [new, keysOf, sizeSum]

/-- Replacing `order` by a permutation of itself preserves the invariant. -/
theorem wf_of_perm {l2 : List (Entry V)} (hwf : WF vlen c) (hp : c.order.Perm l2) :
    WF vlen { c with order := l2 } := by
  obtain ⟨h1, h2, h3, h4, h5⟩ := hwf
  have hkp : (keysOf c.order).Perm (keysOf l2) := hp.map Entry.key
  refine ⟨hkp.nodup_iff.mp h1, h2, ?_, ?_, ?_⟩
  · intro k hk
    exact hkp.mem_iff.mp (h3 k hk)
  · intro e he
    exact h4 e (hp.mem_iff.mpr he)
  · rw [show ({ c with order := l2 } : Cache V).nbytes = c.nbytes from rfl, h5]
    exact sizeSum_perm hp

theorem wf_get (hwf : WF vlen c) (k : String) : WF vlen (get c k).2 := by
  unfold get
  by_cases hc : c.index.contains k = true
  · rw [if_pos hc]
    cases hfind : c.order.find? (fun e2 => e2.key == k) with
    | none => exact hwf
    | some e => exact wf_of_perm hwf (perm_of_find?_eraseP hfind)
  · rw [if_neg hc]
    exact hwf

theorem wf_addCore (hwf : WF vlen c) (k : String) (v : V) :
    WF vlen (addCore vlen c k v) := by
  unfold addCore
  by_cases hc : c.index.contains k = true
  · rw [if_pos hc]
    cases hfind : c.order.find? (fun e2 => e2.key == k) with
    | none => exact hwf
    | some old =>
      have hperm := perm_of_find?_eraseP hfind
      have hkey : old.key = k := find?_key_eq hfind
      have hkp : (keysOf c.order).Perm
          (keysOf (⟨k, v⟩ :: c.order.eraseP (fun e2 => e2.key == k))) := by
        have h := hperm.map Entry.key
        rw [List.map_cons, hkey] at h
        exact h
      refine ⟨hkp.nodup_iff.mp hwf.1, hwf.2.1, ?_, ?_, ?_⟩
      · intro k2 hk2
        exact hkp.mem_iff.mp (hwf.2.2.1 k2 hk2)
      · intro e he
        rcases List.mem_cons.mp he with rfl | he2
        · simpa using hc
        · exact hwf.2.2.2.1 e ((List.eraseP_sublist c.order).mem he2)
      · show c.nbytes + ((vlen v : Int) - (vlen old.value : Int)) =
          sizeSum vlen (⟨k, v⟩ :: c.order.eraseP (fun e2 => e2.key == k))
        rw [sizeSum_cons, hwf.bytes_eq, sizeSum_perm hperm, sizeSum_cons]
        simp [Entry.size, hkey]
        ring
  · rw [if_neg hc]
    have hknot : k ∉ keysOf c.order := fun hk => hc ((hwf.contains_iff k).mpr hk)
    have hinot : k ∉ c.index := fun hk => hknot ((hwf.mem_index_iff k).mp hk)
    refine ⟨?_, ?_, ?_, ?_, ?_⟩
    · exact List.nodup_cons.mpr ⟨hknot, hwf.1⟩
    · exact List.nodup_cons.mpr ⟨hinot, hwf.2.1⟩
    · intro k2 hk2
      rcases List.mem_cons.mp hk2 with rfl | hk3
      · exact List.mem_cons_self _ _
      · exact List.mem_cons_of_mem _ (hwf.2.2.1 k2 hk3)
    · intro e he
      rcases List.mem_cons.mp he with rfl | he2
      · exact List.mem_cons_self _ _
      · exact List.mem_cons_of_mem _ (hwf.2.2.2.1 e he2)
    · show c.nbytes + ((k.length : Int) + (vlen v : Int)) =
        sizeSum vlen (⟨k, v⟩ :: c.order)
      rw [sizeSum_cons, hwf.bytes_eq]
      simp [Entry.size]
      ring

theorem removeOldest_nil (h : c.order = []) : removeOldest vlen c = (c, none) := by
  unfold removeOldest
  simp [h]

theorem removeOldest_some (vlen : V → Nat) {kv : Entry V} (h : c.order.getLast? = some kv) :
    removeOldest vlen c =
      ({ c with
          order := c.order.dropLast,
          index := c.index.filter (fun k2 => !(k2 == kv.key)),
          nbytes := c.nbytes - Entry.size vlen kv },
        some (kv.key, kv.value)) := by
  unfold removeOldest
  rw [h]

/-- The last entry's key does not occur among the keys of the remaining
entries, when resident keys are distinct. -/
theorem last_key_not_mem_dropLast {kv : Entry V} (hnd : (keysOf c.order).Nodup)
    (h : c.order.getLast? = some kv) : kv.key ∉ keysOf c.order.dropLast := by
  have hdec := getLast?_decomp h
  have hkeys : keysOf c.order.dropLast ++ [kv.key] = keysOf c.order := by
    have h2 : keysOf (c.order.dropLast ++ [kv]) = keysOf c.order := by rw [hdec]
    rw [keysOf_append] at h2
    exact h2
  rw [← hkeys, List.nodup_append] at hnd
  intro hm
  exact hnd.2.2 hm (List.mem_singleton.mpr rfl)

theorem wf_removeOldest (hwf : WF vlen c) : WF vlen (removeOldest vlen c).1 := by
  cases hl : c.order.getLast? with
  | none =>
    have : c.order = [] := by simpa using hl
    rw [removeOldest_nil this]
    exact hwf
  | some kv =>
    rw [removeOldest_some vlen hl]
    have hdec := getLast?_decomp hl
    have hkeys : keysOf c.order.dropLast ++ [kv.key] = keysOf c.order := by
      have h2 : keysOf (c.order.dropLast ++ [kv]) = keysOf c.order := by rw [hdec]
      rw [keysOf_append] at h2
      exact h2
    have hnot := last_key_not_mem_dropLast hwf.1 hl
    refine ⟨?_, hwf.2.1.filter _, ?_, ?_, ?_⟩
    · have h := hwf.1
      rw [← hkeys, List.nodup_append] at h
      exact h.1
    · intro k2 hk2
      rw [List.mem_filter] at hk2
      have hk3 : k2 ∈ keysOf c.order := hwf.2.2.1 k2 hk2.1
      rw [← hkeys, List.mem_append] at hk3
      rcases hk3 with h3 | h3
      · exact h3
      · exfalso
        have : k2 = kv.key := by simpa using h3
        simp [this] at hk2
    · intro e he
      have hmem : e ∈ c.order := by
        rw [← hdec]
        exact List.mem_append_left _ he
      have hkey : e.key ∈ c.index := hwf.2.2.2.1 e hmem
      rw [List.mem_filter]
      refine ⟨hkey, ?_⟩
      have hne : e.key ≠ kv.key := by
        intro heq
        exact hnot (heq ▸ (List.mem_map_of_mem Entry.key he))
      simpa using hne
    · show c.nbytes - Entry.size vlen kv = sizeSum vlen c.order.dropLast
      have h2 : sizeSum vlen c.order = sizeSum vlen c.order.dropLast + Entry.size vlen kv := by
        conv_lhs => rw [← hdec]
        rw [sizeSum_append, sizeSum_cons, sizeSum_nil]
        ring
      rw [hwf.bytes_eq, h2]
      ring

/-! ### The eviction loop -/

theorem addCore_maxBytes (k : String) (v : V) :
    (addCore vlen c k v).maxBytes = c.maxBytes := by
  unfold addCore
  split
  · split <;> rfl
  · rfl

theorem removeOldest_maxBytes : (removeOldest vlen c).1.maxBytes = c.maxBytes := by
  unfold removeOldest
  split <;> rfl

theorem evictStep_maxBytes : (evictStep vlen c).maxBytes = c.maxBytes :=
  removeOldest_maxBytes

theorem evictStep_order : (evictStep vlen c).order = c.order.dropLast := by
  unfold evictStep
  cases hl : c.order.getLast? with
  | none =>
    have h : c.order = [] := by simpa using hl
    rw [removeOldest_nil h, h]
    rfl
  | some kv =>
    rw [removeOldest_some vlen hl]

theorem wf_evictStep (hwf : WF vlen c) : WF vlen (evictStep vlen c) :=
  wf_removeOldest hwf

theorem evictStep_iterate_order (n : Nat) :
    ((evictStep vlen)^[n] c).order = c.order.take (c.order.length - n) := by
  induction n with
  | zero => simp
  | succ n ih =>
    rw [Function.iterate_succ_apply', evictStep_order, ih, List.dropLast_eq_take,
      List.take_take, List.length_take]
    congr 1
    omega

theorem evictStep_iterate_maxBytes (n : Nat) :
    ((evictStep vlen)^[n] c).maxBytes = c.maxBytes := by
  induction n with
  | zero => rfl
  | succ n ih => rw [Function.iterate_succ_apply', evictStep_maxBytes, ih]

theorem wf_evictStep_iterate (hwf : WF vlen c) (n : Nat) :
    WF vlen ((evictStep vlen)^[n] c) := by
  induction n with
  | zero => exact hwf
  | succ n ih =>
    rw [Function.iterate_succ_apply']
    exact wf_evictStep ih

theorem evictLoop_zero : evictLoop vlen 0 c = (c, []) := rfl

theorem evictLoop_succ_true (n : Nat) (h : loopCond c = true) :
    evictLoop vlen (n + 1) c =
      ((evictLoop vlen n (removeOldest vlen c).1).1,
        (removeOldest vlen c).2.toList ++ (evictLoop vlen n (removeOldest vlen c).1).2) := by
  rw [evictLoop, if_pos h]

theorem evictLoop_succ_false (n : Nat) (h : loopCond c = false) :
    evictLoop vlen (n + 1) c = (c, []) := by
  rw [evictLoop, if_neg (by simp [h])]

/-- If the guard already fails the loop does not run at all. -/
theorem evictLoop_of_cond_false (n : Nat) (h : loopCond c = false) :
    evictLoop vlen n c = (c, []) := by
  cases n with
  | zero => rfl
  | succ n => exact evictLoop_succ_false n h

theorem wf_evictLoop (n : Nat) (hwf : WF vlen c) : WF vlen (evictLoop vlen n c).1 := by
  induction n generalizing c with
  | zero => exact hwf
  | succ n ih =>
    by_cases h : loopCond c = true
    · rw [evictLoop_succ_true n h]
      exact ih (wf_removeOldest hwf)
    · rw [evictLoop_succ_false n (by simpa using h)]
      exact hwf

theorem evictLoop_maxBytes (n : Nat) : (evictLoop vlen n c).1.maxBytes = c.maxBytes := by
  induction n generalizing c with
  | zero => rfl
  | succ n ih =>
    by_cases h : loopCond c = true
    · rw [evictLoop_succ_true n h, ih, removeOldest_maxBytes]
    · rw [evictLoop_succ_false n (by simpa using h)]

/-- Every state the eviction loop reaches keeps an initial segment of the
recency list: evictions only take entries from the back. -/
theorem evictLoop_order_take (vlen : V → Nat) (n : Nat) :
    ∃ m, (evictLoop vlen n c).1.order = c.order.take m := by
  induction n generalizing c with
  | zero => exact ⟨c.order.length, (List.take_length c.order).symm⟩
  | succ n ih =>
    by_cases h : loopCond c = true
    · rw [evictLoop_succ_true n h]
      obtain ⟨m, hm⟩ := ih (c := (removeOldest vlen c).1)
      have hdrop : (removeOldest vlen c).1.order = c.order.dropLast := evictStep_order
      refine ⟨min m (c.order.length - 1), ?_⟩
      rw [hm, hdrop, List.dropLast_eq_take, List.take_take]
    · rw [evictLoop_succ_false n (by simpa using h)]
      exact ⟨c.order.length, (List.take_length c.order).symm⟩

/-- With fuel at least the number of resident entries, the loop either
stops because the guard failed or has emptied the cache. -/
theorem evictLoop_dichotomy (n : Nat) (hn : c.order.length ≤ n) :
    loopCond (evictLoop vlen n c).1 = false ∨ (evictLoop vlen n c).1.order = [] := by
  induction n generalizing c with
  | zero =>
    right
    rw [evictLoop_zero]
    exact List.length_eq_zero.mp (Nat.le_zero.mp hn)
  | succ n ih =>
    by_cases h : loopCond c = true
    · rw [evictLoop_succ_true n h]
      apply ih
      have hdrop : (removeOldest vlen c).1.order = c.order.dropLast :=
        evictStep_order
      rw [hdrop, List.length_dropLast]
      omega
    · rw [evictLoop_succ_false n (by simpa using h)]
      left
      simpa using h

theorem head?_take {α : Type} {l : List α} {m : Nat} (h : l.take m ≠ []) :
    (l.take m).head? = l.head? := by
  cases l with
  | nil => simp at h
  | cons a t =>
    cases m with
    | zero => simp at h
    | succ m => rfl

/-- After the branch of `Add` but before the loop, the written entry sits
at the most-recently-used position (on well-formed states the unreachable
dangling-pointer branch cannot fire). -/
theorem addCore_order (hwf : WF vlen c) (k : String) (v : V) :
    ∃ rest, (addCore vlen c k v).order = ⟨k, v⟩ :: rest := by
  unfold addCore
  by_cases hc : c.index.contains k = true
  · rw [if_pos hc]
    have hk : k ∈ keysOf c.order := (hwf.contains_iff k).mp hc
    obtain ⟨e, hfind⟩ := find?_key_of_mem hk
    rw [hfind]
    exact ⟨_, rfl⟩
  · rw [if_neg hc]
    exact ⟨_, rfl⟩

theorem add_wf (hwf : WF vlen c) (k : String) (v : V) : WF vlen (add vlen c k v).1 :=
  wf_evictLoop _ (wf_addCore hwf k v)

theorem add_maxBytes (k : String) (v : V) :
    (add vlen c k v).1.maxBytes = c.maxBytes := by
  unfold add
  rw [evictLoop_maxBytes, addCore_maxBytes]

theorem add_dichotomy (vlen : V → Nat) (k : String) (v : V) :
    loopCond (add vlen c k v).1 = false ∨ (add vlen c k v).1.order = [] :=
  evictLoop_dichotomy _ (Nat.le_refl _)

theorem loopCond_false_le (hmb : c.maxBytes ≠ 0) (h : loopCond c = false) :
    c.nbytes ≤ c.maxBytes := by
  simp only [loopCond, Bool.and_eq_false_iff, bne_eq_false_iff_eq,
    decide_eq_false_iff_not, not_lt] at h
  rcases h with h | h
  · exact absurd h hmb
  · exact h

theorem loopCond_true_of (hmb : c.maxBytes ≠ 0) (h : c.maxBytes < c.nbytes) :
    loopCond c = true := by
  simp only [loopCond, Bool.and_eq_true, bne_iff_ne, ne_eq, decide_eq_true_eq]
  exact ⟨hmb, h⟩

/-- An entry whose own size exceeds a non-zero budget is evicted by the
loop together with everything else: the cache ends up empty. -/
theorem add_oversized_empty (hwf : WF vlen c) (k : String) (v : V)
    (hmb : c.maxBytes ≠ 0)
    (hsz : c.maxBytes < (k.length : Int) + (vlen v : Int)) :
    (add vlen c k v).1.order = [] := by
  by_contra hne
  obtain ⟨m, hm⟩ := evictLoop_order_take (c := addCore vlen c k v) vlen
    (addCore vlen c k v).order.length
  have hm2 : (add vlen c k v).1.order = (addCore vlen c k v).order.take m := hm
  have hhead : (add vlen c k v).1.order.head? = (addCore vlen c k v).order.head? := by
    rw [hm2]
    exact head?_take (by rw [← hm2]; exact hne)
  obtain ⟨rest, hrest⟩ := addCore_order hwf k v
  have hhead2 : (add vlen c k v).1.order.head? = some ⟨k, v⟩ := by
    rw [hhead, hrest]
    rfl
  have hmem : (⟨k, v⟩ : Entry V) ∈ (add vlen c k v).1.order := by
    cases ho : (add vlen c k v).1.order with
    | nil => exact absurd ho hne
    | cons a t =>
      rw [ho] at hhead2
      injection hhead2 with h2
      rw [h2]
      exact List.mem_cons_self _ _
  have hwf2 : WF vlen (add vlen c k v).1 := add_wf hwf k v
  have hle : Entry.size vlen ⟨k, v⟩ ≤ sizeSum vlen (add vlen c k v).1.order :=
    size_le_sizeSum hmem
  have hcond : loopCond (add vlen c k v).1 = true := by
    apply loopCond_true_of
    · rw [add_maxBytes]
      exact hmb
    · rw [add_maxBytes, hwf2.bytes_eq]
      calc c.maxBytes < (k.length : Int) + (vlen v : Int) := hsz
        _ = Entry.size vlen ⟨k, v⟩ := rfl
        _ ≤ _ := hle
  rcases add_dichotomy (c := c) vlen k v with hF | hE
  · rw [hcond] at hF
    exact absurd hF (by simp)
  · exact hne hE

/-- After `Add` on a well-formed state with non-zero budget, either the
resident total fits the budget or the cache has been emptied. -/
theorem add_fits_or_empty (hwf : WF vlen c) (k : String) (v : V)
    (hmb : c.maxBytes ≠ 0) :
    sizeSum vlen (add vlen c k v).1.order ≤ c.maxBytes ∨
      (add vlen c k v).1.order = [] := by
  rcases add_dichotomy (c := c) vlen k v with hF | hE
  · left
    have hwf2 : WF vlen (add vlen c k v).1 := add_wf hwf k v
    have hmb2 : (add vlen c k v).1.maxBytes ≠ 0 := by
      rw [add_maxBytes]
      exact hmb
    have := loopCond_false_le hmb2 hF
    rw [add_maxBytes] at this
    rw [← hwf2.bytes_eq]
    exact this
  · right
    exact hE

theorem get_nbytes (k : String) : (get c k).2.nbytes = c.nbytes := by
  unfold get
  by_cases hc : c.index.contains k = true
  · rw [if_pos hc]
    cases hfind : c.order.find? (fun e2 => e2.key == k) <;> rfl
  · rw [if_neg hc]

theorem removeOldest_nbytes_le : (removeOldest vlen c).1.nbytes ≤ c.nbytes := by
  cases hl : c.order.getLast? with
  | none => rw [removeOldest_nil (by simpa using hl)]
  | some kv =>
    rw [removeOldest_some vlen hl]
    have := entry_size_nonneg vlen kv
    show c.nbytes - Entry.size vlen kv ≤ c.nbytes
    omega

/-! ### Unbounded mode -/

/-- With `maxBytes = 0` the guard is identically false, so `Add` is just
the insert/update branch and fires no callback. -/
theorem add_unbounded (hmb : c.maxBytes = 0) (k : String) (v : V) :
    add vlen c k v = (addCore vlen c k v, []) := by
  unfold add
  apply evictLoop_of_cond_false
  simp [loopCond, addCore_maxBytes, hmb]

theorem addCore_miss (vlen : V → Nat) {k : String} (hk : c.index.contains k = false) (v : V) :
    addCore vlen c k v =
      { c with
          order := ⟨k, v⟩ :: c.order,
          index := k :: c.index,
          nbytes := c.nbytes + ((k.length : Int) + (vlen v : Int)) } := by
  unfold addCore
  have hne : ¬ (c.index.contains k = true) := by
    rw [hk]
    exact fun h => Bool.noConfusion h
  rw [if_neg hne]

theorem addSeq_cons (k : String) (v : V) (ps : List (String × V)) :
    addSeq vlen c ((k, v) :: ps) =
      ((addSeq vlen (add vlen c k v).1 ps).1,
        (add vlen c k v).2 ++ (addSeq vlen (add vlen c k v).1 ps).2) := rfl

theorem addSeq_unbounded_events (ps : List (String × V)) :
    ∀ c : Cache V, c.maxBytes = 0 → (addSeq vlen c ps).2 = [] := by
  induction ps with
  | nil => intro c _; rfl
  | cons p ps ih =>
    intro c hmb
    obtain ⟨k, v⟩ := p
    rw [addSeq_cons, add_unbounded hmb k v]
    have ih2 := ih (addCore vlen c k v) (by rw [addCore_maxBytes]; exact hmb)
    simp [ih2]

theorem addSeq_unbounded_length (vlen : V → Nat) (ps : List (String × V)) :
    ∀ c : Cache V, c.maxBytes = 0 → WF vlen c → (ps.map Prod.fst).Nodup →
      (∀ p ∈ ps, p.1 ∉ keysOf c.order) →
      (addSeq vlen c ps).1.order.length = c.order.length + ps.length := by
  induction ps with
  | nil => intro c _ _ _ _; rfl
  | cons p ps ih =>
    intro c hmb hwf hnd hdisj
    obtain ⟨k, v⟩ := p
    have hknot : k ∉ keysOf c.order := hdisj (k, v) (List.mem_cons_self _ _)
    have hmiss : c.index.contains k = false := by
      cases hct : c.index.contains k with
      | false => rfl
      | true => exact absurd ((hwf.contains_iff k).mp hct) hknot
    rw [addSeq_cons, add_unbounded hmb k v]
    have hcore := addCore_miss vlen hmiss v
    rw [List.map_cons, List.nodup_cons] at hnd
    have hlen := ih (addCore vlen c k v)
      (by rw [addCore_maxBytes]; exact hmb)
      (wf_addCore hwf k v)
      hnd.2
      (by
        intro p hp
        rw [hcore]
        show p.1 ∉ keysOf (⟨k, v⟩ :: c.order)
        rw [keysOf_cons, List.mem_cons]
        rintro (h1 | h2)
        · apply hnd.1
          have hm : p.1 ∈ ps.map Prod.fst := List.mem_map_of_mem Prod.fst hp
          rw [h1] at hm
          exact hm
        · exact hdisj p (List.mem_cons_of_mem _ hp) h2)
    show (addSeq vlen (addCore vlen c k v) ps).1.order.length = c.order.length + (ps.length + 1)
    rw [hlen, hcore]
    show (⟨k, v⟩ :: c.order).length + ps.length = c.order.length + (ps.length + 1)
    simp
    omega

/-! ### Eviction order respects list positions -/

/-- In a duplicate-free list, if the entry at position `j` survives a
back-truncation then so does any entry at an earlier position. -/
theorem mem_take_of_mem_take {α : Type} {K : List α} (hnd : K.Nodup) {i j m : Nat}
    (hij : i ≤ j) (hi : i < K.length) (hj : j < K.length)
    (hB : K[j] ∈ K.take m) : K[i] ∈ K.take m := by
  rw [List.mem_iff_getElem] at hB
  obtain ⟨p, hp, hpe⟩ := hB
  have hlen : (K.take m).length = min m K.length := List.length_take m K
  rw [hlen] at hp
  have hpm : p < m := lt_of_lt_of_le hp (min_le_left _ _)
  have hpK : p < K.length := lt_of_lt_of_le hp (min_le_right _ _)
  have hpe2 : K[p] = K[j] := by
    have ht : (K.take m)[p] = K[p] := List.getElem_take K
    rw [ht] at hpe
    rw [hpe]
  have hpj : p = j := (hnd.getElem_inj_iff).mp hpe2
  rw [List.mem_iff_getElem]
  refine ⟨i, ?_, ?_⟩
  · rw [hlen]
    exact lt_min (by omega) hi
  · exact List.getElem_take K

theorem addCore_hit (vlen : V → Nat) {k : String} {old : Entry V} (hc : c.index.contains k = true)
    (hfind : c.order.find? (fun e2 => e2.key == k) = some old) (v : V) :
    addCore vlen c k v =
      { c with
          order := ⟨k, v⟩ :: c.order.eraseP (fun e2 => e2.key == k),
          nbytes := c.nbytes + ((vlen v : Int) - (vlen old.value : Int)) } := by
  unfold addCore
  rw [if_pos hc, hfind]

theorem get_hit {k : String} {e : Entry V} (hc : c.index.contains k = true)
    (hfind : c.order.find? (fun e2 => e2.key == k) = some e) :
    get c k =
      (some e.value,
        { c with order := e :: c.order.eraseP (fun e2 => e2.key == k) }) := by
  unfold get
  rw [if_pos hc, hfind]

/-- A concrete two-entry cache (front "a" more recent than back "b"),
used to instantiate the recency theorems. -/
def sampleCache : Cache Nat :=
  { maxBytes := 0, nbytes := 4,
    order := [⟨"a", 1⟩, ⟨"b", 1⟩], index := ["a", "b"] }

/-! ### Claims -/

/-- C1: for every Add on a well-formed cache with `maxBytes ≠ 0`, after the
Add completes the resident total fits the budget, except that when the
inserted entry's own size exceeds `maxBytes` the cache holds zero entries
(the eviction loop evicts the very entry just inserted). -/
theorem C1_capacity_invariant (vlen : V → Nat) (c : Cache V) (k : String) (v : V)
    (hwf : WF vlen c) (hmb : c.maxBytes ≠ 0) :
    (sizeSum vlen (add vlen c k v).1.order ≤ c.maxBytes ∨
      (c.maxBytes < (k.length : Int) + (vlen v : Int) ∧
        (add vlen c k v).1.order = [])) ∧
    (c.maxBytes < (k.length : Int) + (vlen v : Int) →
      (add vlen c k v).1.order = []) := by
  constructor
  · rcases add_fits_or_empty hwf k v hmb with h | h
    · exact Or.inl h
    · by_cases hsz : c.maxBytes < (k.length : Int) + (vlen v : Int)
      · exact Or.inr ⟨hsz, h⟩
      · left
        rw [h, sizeSum_nil]
        have hpos : (0 : Int) ≤ (k.length : Int) + (vlen v : Int) := by positivity
        omega
  · intro hsz
    exact add_oversized_empty hwf k v hmb hsz

theorem C1_capacity_invariant_witness :
    (sizeSum (fun n : Nat => n) (add (fun n : Nat => n) (new 10 : Cache Nat) "a" 4).1.order ≤
        (new 10 : Cache Nat).maxBytes ∨
      ((new 10 : Cache Nat).maxBytes < (("a".length : Nat) : Int) + (((4 : Nat) : Nat) : Int) ∧
        (add (fun n : Nat => n) (new 10 : Cache Nat) "a" 4).1.order = [])) ∧
    ((new 10 : Cache Nat).maxBytes < (("a".length : Nat) : Int) + (((4 : Nat) : Nat) : Int) →
      (add (fun n : Nat => n) (new 10 : Cache Nat) "a" 4).1.order = []) :=
  C1_capacity_invariant (fun n : Nat => n) (new 10) "a" 4 (by decide) (by decide)

/-- C2 counterexample: on a budget-1 cache, adding a single entry of size 6
("a" plus a value of size 5) evicts the very entry whose insertion caused
the overflow — the Add's eviction events name key "a" and the cache ends
empty, rather than keeping one oversized entry and never evicting it
against its own insertion. -/
theorem C2_oversized_self_eviction_counterexample :
    (add (fun n : Nat => n) (new 1 : Cache Nat) "a" 5).1.order = [] ∧
    (add (fun n : Nat => n) (new 1 : Cache Nat) "a" 5).2 = [("a", 5)] ∧
    ¬ (∀ ev ∈ (add (fun n : Nat => n) (new 1 : Cache Nat) "a" 5).2, ev.1 ≠ "a") := by
  refine ⟨by decide, by decide, ?_⟩
  intro h
  exact h ("a", 5) (by decide) rfl

/-- C2 (amended): on a well-formed cache with positive budget, after Add
`currentBytes ≤ maxBytes` always holds (an entry larger than the budget is
itself evicted, possibly leaving the cache empty); Get never changes
`currentBytes`; and Get and RemoveOldest keep a within-budget cache within
budget. -/
theorem C2_budget_after_ops (vlen : V → Nat) (c : Cache V) (k : String) (v : V)
    (hwf : WF vlen c) (hmb : 0 < c.maxBytes) :
    (add vlen c k v).1.nbytes ≤ c.maxBytes ∧
    (get c k).2.nbytes = c.nbytes ∧
    (c.nbytes ≤ c.maxBytes → (get c k).2.nbytes ≤ c.maxBytes) ∧
    (c.nbytes ≤ c.maxBytes → (removeOldest vlen c).1.nbytes ≤ c.maxBytes) := by
  refine ⟨?_, get_nbytes k, ?_, ?_⟩
  · have hwf2 := add_wf hwf k v
    rcases add_fits_or_empty hwf k v (by omega) with h | h
    · rw [hwf2.bytes_eq]
      exact h
    · rw [hwf2.bytes_eq, h, sizeSum_nil]
      omega
  · intro hle
    rw [get_nbytes k]
    exact hle
  · intro hle
    exact le_trans removeOldest_nbytes_le hle

theorem C2_budget_after_ops_witness :
    (add (fun n : Nat => n) (new 10 : Cache Nat) "a" 4).1.nbytes ≤
      (new 10 : Cache Nat).maxBytes ∧
    (get (new 10 : Cache Nat) "a").2.nbytes = (new 10 : Cache Nat).nbytes ∧
    ((new 10 : Cache Nat).nbytes ≤ (new 10 : Cache Nat).maxBytes →
      (get (new 10 : Cache Nat) "a").2.nbytes ≤ (new 10 : Cache Nat).maxBytes) ∧
    ((new 10 : Cache Nat).nbytes ≤ (new 10 : Cache Nat).maxBytes →
      (removeOldest (fun n : Nat => n) (new 10 : Cache Nat)).1.nbytes ≤
        (new 10 : Cache Nat).maxBytes) :=
  C2_budget_after_ops (fun n : Nat => n) (new 10) "a" 4 (by decide) (by decide)

/-- C3: `Add` terminates whenever the cache was constructed with
`maxBytes ≥ 0` — after at most `order.length` iterations of the loop body
the guard is false; but with a negative `maxBytes` the guard is true after
every number of iterations (after everything is evicted `nbytes` is 0 and
`maxBytes < 0` keeps the guard true), and `RemoveOldest` on the empty
cache is a no-op, so the Go loop never terminates. -/
theorem C3_add_termination_dichotomy (vlen : V → Nat) (c : Cache V) (k : String) (v : V)
    (hwf : WF vlen c) :
    (∀ c2 : Cache V, c2.order = [] → removeOldest vlen c2 = (c2, none)) ∧
    (0 ≤ c.maxBytes →
      loopCond ((evictStep vlen)^[(addCore vlen c k v).order.length]
        (addCore vlen c k v)) = false) ∧
    (c.maxBytes < 0 →
      ∀ n : Nat, loopCond ((evictStep vlen)^[n] (addCore vlen c k v)) = true) := by
  refine ⟨fun c2 h => removeOldest_nil h, ?_, ?_⟩
  · intro hmb
    have horder : ((evictStep vlen)^[(addCore vlen c k v).order.length]
        (addCore vlen c k v)).order = [] := by
      rw [evictStep_iterate_order, Nat.sub_self, List.take_zero]
    have hwf2 := wf_evictStep_iterate (wf_addCore hwf k v)
      (addCore vlen c k v).order.length
    have hbytes : ((evictStep vlen)^[(addCore vlen c k v).order.length]
        (addCore vlen c k v)).nbytes = 0 := by
      rw [hwf2.bytes_eq, horder, sizeSum_nil]
    have hmax : ((evictStep vlen)^[(addCore vlen c k v).order.length]
        (addCore vlen c k v)).maxBytes = c.maxBytes := by
      rw [evictStep_iterate_maxBytes, addCore_maxBytes]
    simp only [loopCond, hbytes, hmax, Bool.and_eq_false_iff,
      decide_eq_false_iff_not, not_lt]
    right
    exact hmb
  · intro hmb n
    have hwf2 := wf_evictStep_iterate (wf_addCore hwf k v) n
    have hmax : ((evictStep vlen)^[n] (addCore vlen c k v)).maxBytes = c.maxBytes := by
      rw [evictStep_iterate_maxBytes, addCore_maxBytes]
    apply loopCond_true_of
    · rw [hmax]
      omega
    · rw [hmax, hwf2.bytes_eq]
      have := sizeSum_nonneg vlen
        ((evictStep vlen)^[n] (addCore vlen c k v)).order
      omega

theorem C3_add_termination_dichotomy_witness :
    (∀ c2 : Cache Nat, c2.order = [] →
      removeOldest (fun n : Nat => n) c2 = (c2, none)) ∧
    (0 ≤ (new 10 : Cache Nat).maxBytes →
      loopCond ((evictStep (fun n : Nat => n))^[(addCore (fun n : Nat => n) (new 10 : Cache Nat) "a" 4).order.length]
        (addCore (fun n : Nat => n) (new 10 : Cache Nat) "a" 4)) = false) ∧
    ((new 10 : Cache Nat).maxBytes < 0 →
      ∀ n : Nat, loopCond ((evictStep (fun n : Nat => n))^[n]
        (addCore (fun n : Nat => n) (new 10 : Cache Nat) "a" 4)) = true) :=
  C3_add_termination_dichotomy (fun n : Nat => n) (new 10) "a" 4 (by decide)

/-- C4: the representation invariant — `index` holds exactly one entry per
key resident in `order` with equal cardinalities, and `currentBytes` is
the exact sum of (key length + value size) over `order` — holds for a new
cache and is preserved by Get, Add, RemoveOldest (and trivially by Len,
which does not mutate). -/
theorem C4_invariants_preserved (vlen : V → Nat) (mb : Int) (c : Cache V)
    (k : String) (v : V) (hwf : WF vlen c) :
    WF vlen (new (V := V) mb) ∧
    WF vlen (get c k).2 ∧
    WF vlen (add vlen c k v).1 ∧
    WF vlen (removeOldest vlen c).1 ∧
    c.index.length = c.order.length ∧
    c.nbytes = sizeSum vlen c.order :=
  ⟨wf_new mb, wf_get hwf k, add_wf hwf k v, wf_removeOldest hwf,
    hwf.card_eq, hwf.bytes_eq⟩

theorem C4_invariants_preserved_witness :
    WF (fun n : Nat => n) (new (V := Nat) 7) ∧
    WF (fun n : Nat => n) (get sampleCache "a").2 ∧
    WF (fun n : Nat => n) (add (fun n : Nat => n) sampleCache "c" 2).1 ∧
    WF (fun n : Nat => n) (removeOldest (fun n : Nat => n) sampleCache).1 ∧
    sampleCache.index.length = sampleCache.order.length ∧
    sampleCache.nbytes = sizeSum (fun n : Nat => n) sampleCache.order :=
  C4_invariants_preserved (fun n : Nat => n) 7 sampleCache "c" 2 (by decide)

/-- C5: if A sits strictly closer to the front of the recency list than B
(A was accessed more recently and neither since), then under repeated
eviction B disappears no later than A — whenever B is still resident, so
is A; and in the concrete run Add x, Add y, Get x, Add z on a budget
holding two entries, "y" is evicted while "x" stays resident. -/
theorem C5_recency_eviction_order (vlen : V → Nat) (c : Cache V) (i j : Nat)
    (A B : String) (hwf : WF vlen c) (hi : i < c.order.length)
    (hj : j < c.order.length) (hij : i < j)
    (hA : (c.order.get ⟨i, hi⟩).key = A) (hB : (c.order.get ⟨j, hj⟩).key = B) :
    (∀ n : Nat, B ∈ keysOf ((evictStep vlen)^[n] c).order →
      A ∈ keysOf ((evictStep vlen)^[n] c).order) ∧
    (keysOf (add (fun n : Nat => n)
        (get (addSeq (fun n : Nat => n) (new 10 : Cache Nat)
          [("x", 4), ("y", 4)]).1 "x").2 "z" 4).1.order = ["z", "x"] ∧
      (add (fun n : Nat => n)
        (get (addSeq (fun n : Nat => n) (new 10 : Cache Nat)
          [("x", 4), ("y", 4)]).1 "x").2 "z" 4).2 = [("y", 4)]) := by
  refine ⟨?_, by decide, by decide⟩
  intro n hBmem
  rw [evictStep_iterate_order] at hBmem ⊢
  have hmap := List.map_take Entry.key c.order (c.order.length - n)
  rw [show keysOf (c.order.take (c.order.length - n)) =
      (keysOf c.order).take (c.order.length - n) from hmap] at hBmem ⊢
  have hKi : i < (keysOf c.order).length := by rw [keysOf_length]; omega
  have hKj : j < (keysOf c.order).length := by rw [keysOf_length]; omega
  have hgi : (keysOf c.order)[i] = A := by
    show (c.order.map Entry.key)[i] = A
    rw [List.getElem_map]
    exact hA
  have hgj : (keysOf c.order)[j] = B := by
    show (c.order.map Entry.key)[j] = B
    rw [List.getElem_map]
    exact hB
  rw [← hgj] at hBmem
  rw [← hgi]
  exact mem_take_of_mem_take hwf.1 (le_of_lt hij) hKi hKj hBmem

theorem C5_recency_eviction_order_witness :
    (∀ n : Nat, "b" ∈ keysOf ((evictStep (fun n2 : Nat => n2))^[n] sampleCache).order →
      "a" ∈ keysOf ((evictStep (fun n2 : Nat => n2))^[n] sampleCache).order) ∧
    (keysOf (add (fun n : Nat => n)
        (get (addSeq (fun n : Nat => n) (new 10 : Cache Nat)
          [("x", 4), ("y", 4)]).1 "x").2 "z" 4).1.order = ["z", "x"] ∧
      (add (fun n : Nat => n)
        (get (addSeq (fun n : Nat => n) (new 10 : Cache Nat)
          [("x", 4), ("y", 4)]).1 "x").2 "z" 4).2 = [("y", 4)]) :=
  C5_recency_eviction_order (fun n2 : Nat => n2) sampleCache 0 1 "a" "b"
    (by decide) (by decide) (by decide) (by decide) rfl rfl

/-- C6: RemoveOldest on an empty cache is a no-op that fires no callback;
on a non-empty cache it removes the back (least-recently-used) entry from
both the recency list and the key index, decrements `currentBytes` by that
entry's (key length + value size), and emits exactly one `onEvicted` event
carrying that entry's key and value, paired with the already-updated
state (the source fires the callback after the removal and the size
update). -/
theorem C6_removeOldest_contract (vlen : V → Nat) (c : Cache V) (kv : Entry V)
    (hwf : WF vlen c) :
    (c.order = [] → removeOldest vlen c = (c, none)) ∧
    (c.order.getLast? = some kv →
      (removeOldest vlen c).1.order = c.order.dropLast ∧
      kv.key ∉ keysOf (removeOldest vlen c).1.order ∧
      (∀ k2, k2 ∈ (removeOldest vlen c).1.index ↔ k2 ∈ c.index ∧ k2 ≠ kv.key) ∧
      (removeOldest vlen c).1.nbytes = c.nbytes - Entry.size vlen kv ∧
      (removeOldest vlen c).2 = some (kv.key, kv.value)) := by
  refine ⟨removeOldest_nil, ?_⟩
  intro hl
  have hr := removeOldest_some vlen hl
  rw [hr]
  refine ⟨rfl, ?_, ?_, rfl, rfl⟩
  · exact last_key_not_mem_dropLast hwf.1 hl
  · intro k2
    show k2 ∈ c.index.filter (fun k3 => !(k3 == kv.key)) ↔ k2 ∈ c.index ∧ k2 ≠ kv.key
    rw [List.mem_filter]
    constructor
    · rintro ⟨h1, h2⟩
      exact ⟨h1, by simpa using h2⟩
    · rintro ⟨h1, h2⟩
      exact ⟨h1, by simpa using h2⟩

theorem C6_removeOldest_contract_witness :
    (sampleCache.order = [] →
      removeOldest (fun n : Nat => n) sampleCache = (sampleCache, none)) ∧
    (sampleCache.order.getLast? = some ⟨"b", 1⟩ →
      (removeOldest (fun n : Nat => n) sampleCache).1.order =
        sampleCache.order.dropLast ∧
      (⟨"b", 1⟩ : Entry Nat).key ∉
        keysOf (removeOldest (fun n : Nat => n) sampleCache).1.order ∧
      (∀ k2, k2 ∈ (removeOldest (fun n : Nat => n) sampleCache).1.index ↔
        k2 ∈ sampleCache.index ∧ k2 ≠ (⟨"b", 1⟩ : Entry Nat).key) ∧
      (removeOldest (fun n : Nat => n) sampleCache).1.nbytes =
        sampleCache.nbytes - Entry.size (fun n : Nat => n) ⟨"b", 1⟩ ∧
      (removeOldest (fun n : Nat => n) sampleCache).2 =
        some ((⟨"b", 1⟩ : Entry Nat).key, (⟨"b", 1⟩ : Entry Nat).value)) :=
  C6_removeOldest_contract (fun n : Nat => n) sampleCache ⟨"b", 1⟩ (by decide)

/-- C7 counterexample: on a budget-1 cache holding "k" with a size-0 value
(entry size 1, within budget), re-adding "k" with a size-5 value makes the
total 6 > 1, and the eviction loop empties the cache: `Len()` drops from 1
to 0, so an Add on an already-present key does not always leave the entry
count unchanged. -/
theorem C7_update_counterexample :
    (add (fun n : Nat => n) (new 1 : Cache Nat) "k" 0).1.order.length = 1 ∧
    (add (fun n : Nat => n)
      (add (fun n : Nat => n) (new 1 : Cache Nat) "k" 0).1 "k" 5).1.order.length = 0 ∧
    (add (fun n : Nat => n)
      (add (fun n : Nat => n) (new 1 : Cache Nat) "k" 0).1 "k" 5).1.order.length ≠
      (add (fun n : Nat => n) (new 1 : Cache Nat) "k" 0).1.order.length :=
  ⟨by decide, by decide, by decide⟩

/-- C7 (amended): for a key already present, the update branch of Add
replaces the stored value in place at the most-recently-used position,
adjusts `currentBytes` by exactly `newValue.Len() - oldValue.Len()`, and
leaves the entry count, resident key set and index unchanged; the full
Add coincides with this branch and evicts nothing whenever the eviction
guard fails afterwards (in particular within budget or unbounded) — the
unbounded run Add("k",v1); Add("k",v2) keeps one entry whose cost counts
the key once plus only v2. -/
theorem C7_update_in_place (vlen : V → Nat) (c : Cache V) (k : String) (v : V)
    (old : Entry V) (hwf : WF vlen c)
    (hfind : c.order.find? (fun e2 => e2.key == k) = some old) :
    (addCore vlen c k v).order.head? = some ⟨k, v⟩ ∧
    (addCore vlen c k v).order.length = c.order.length ∧
    (addCore vlen c k v).nbytes =
      c.nbytes + ((vlen v : Int) - (vlen old.value : Int)) ∧
    (addCore vlen c k v).index = c.index ∧
    (∀ k2, k2 ∈ keysOf (addCore vlen c k v).order ↔ k2 ∈ keysOf c.order) ∧
    (loopCond (addCore vlen c k v) = false →
      add vlen c k v = (addCore vlen c k v, [])) ∧
    ((addSeq (fun n : Nat => n) (new 0 : Cache Nat)
        [("k", 1), ("k", 2)]).1.order = [⟨"k", 2⟩] ∧
      len (addSeq (fun n : Nat => n) (new 0 : Cache Nat)
        [("k", 1), ("k", 2)]).1 = 1 ∧
      (addSeq (fun n : Nat => n) (new 0 : Cache Nat)
        [("k", 1), ("k", 2)]).1.nbytes = 3) := by
  have hc : c.index.contains k = true := by
    have hkm : k ∈ keysOf c.order := by
      rw [mem_keysOf]
      exact ⟨old, find?_key_mem hfind, find?_key_eq hfind⟩
    exact (hwf.contains_iff k).mpr hkm
  have hcore := addCore_hit vlen hc hfind v
  have hperm := perm_of_find?_eraseP hfind
  refine ⟨?_, ?_, ?_, ?_, ?_, ?_, by decide, by decide, by decide⟩
  · rw [hcore]
    rfl
  · rw [hcore]
    show (⟨k, v⟩ :: c.order.eraseP fun e2 => e2.key == k).length = c.order.length
    rw [hperm.length_eq]
    rfl
  · rw [hcore]
  · rw [hcore]
  · intro k2
    rw [hcore]
    show k2 ∈ keysOf (⟨k, v⟩ :: c.order.eraseP fun e2 => e2.key == k) ↔
      k2 ∈ keysOf c.order
    have hkp : (keysOf c.order).Perm
        (keysOf (⟨k, v⟩ :: c.order.eraseP fun e2 => e2.key == k)) := by
      have h := hperm.map Entry.key
      rw [List.map_cons, find?_key_eq hfind] at h
      exact h
    exact hkp.mem_iff.symm
  · intro hcond
    show add vlen c k v = (addCore vlen c k v, [])
    unfold add
    exact evictLoop_of_cond_false _ hcond

/-- A concrete one-entry cache holding key "k" with a size-1 value, used
to instantiate the hit-path theorems. -/
def sampleCacheK : Cache Nat :=
  { maxBytes := 0, nbytes := 2, order := [⟨"k", 1⟩], index := ["k"] }

theorem C7_update_in_place_witness :
    (addCore (fun n : Nat => n) sampleCacheK "k" 2).order.head? =
      some ⟨"k", 2⟩ ∧
    (addCore (fun n : Nat => n) sampleCacheK "k" 2).order.length =
      sampleCacheK.order.length ∧
    (addCore (fun n : Nat => n) sampleCacheK "k" 2).nbytes =
      sampleCacheK.nbytes + (((2 : Nat) : Int) - (((⟨"k", 1⟩ : Entry Nat).value : Nat) : Int)) ∧
    (addCore (fun n : Nat => n) sampleCacheK "k" 2).index = sampleCacheK.index ∧
    (∀ k2, k2 ∈ keysOf (addCore (fun n : Nat => n) sampleCacheK "k" 2).order ↔
      k2 ∈ keysOf sampleCacheK.order) ∧
    (loopCond (addCore (fun n : Nat => n) sampleCacheK "k" 2) = false →
      add (fun n : Nat => n) sampleCacheK "k" 2 =
        (addCore (fun n : Nat => n) sampleCacheK "k" 2, [])) ∧
    ((addSeq (fun n : Nat => n) (new 0 : Cache Nat)
        [("k", 1), ("k", 2)]).1.order = [⟨"k", 2⟩] ∧
      len (addSeq (fun n : Nat => n) (new 0 : Cache Nat)
        [("k", 1), ("k", 2)]).1 = 1 ∧
      (addSeq (fun n : Nat => n) (new 0 : Cache Nat)
        [("k", 1), ("k", 2)]).1.nbytes = 3) :=
  C7_update_in_place (fun n : Nat => n) sampleCacheK "k" 2 ⟨"k", 1⟩
    (by decide) (by decide)

/-- C8: Get on a present key returns the stored value with found = true,
moves that key's entry to the most-recently-used (front) position, and
leaves `currentBytes`, `maxBytes`, the index, the entry count and the
resident key set unchanged — no eviction is triggered. -/
theorem C8_get_hit_spec (vlen : V → Nat) (c : Cache V) (k : String) (e : Entry V)
    (hwf : WF vlen c) (hfind : c.order.find? (fun e2 => e2.key == k) = some e) :
    (get c k).1 = some e.value ∧
    e.key = k ∧
    (get c k).2.order.head? = some e ∧
    (get c k).2.nbytes = c.nbytes ∧
    (get c k).2.maxBytes = c.maxBytes ∧
    (get c k).2.index = c.index ∧
    (get c k).2.order.length = c.order.length ∧
    (∀ k2, k2 ∈ keysOf (get c k).2.order ↔ k2 ∈ keysOf c.order) := by
  have hc : c.index.contains k = true := by
    have hkm : k ∈ keysOf c.order := by
      rw [mem_keysOf]
      exact ⟨e, find?_key_mem hfind, find?_key_eq hfind⟩
    exact (hwf.contains_iff k).mpr hkm
  have hg := get_hit (c := c) hc hfind
  have hperm := perm_of_find?_eraseP hfind
  refine ⟨by rw [hg], find?_key_eq hfind, by rw [hg]; rfl, by rw [hg],
    by rw [hg], by rw [hg], ?_, ?_⟩
  · rw [hg]
    show (e :: c.order.eraseP fun e2 => e2.key == k).length = c.order.length
    rw [hperm.length_eq]
  · intro k2
    rw [hg]
    show k2 ∈ keysOf (e :: c.order.eraseP fun e2 => e2.key == k) ↔
      k2 ∈ keysOf c.order
    exact ((hperm.map Entry.key).mem_iff).symm

theorem C8_get_hit_spec_witness :
    (get sampleCacheK "k").1 = some (⟨"k", 1⟩ : Entry Nat).value ∧
    (⟨"k", 1⟩ : Entry Nat).key = "k" ∧
    (get sampleCacheK "k").2.order.head? = some ⟨"k", 1⟩ ∧
    (get sampleCacheK "k").2.nbytes = sampleCacheK.nbytes ∧
    (get sampleCacheK "k").2.maxBytes = sampleCacheK.maxBytes ∧
    (get sampleCacheK "k").2.index = sampleCacheK.index ∧
    (get sampleCacheK "k").2.order.length = sampleCacheK.order.length ∧
    (∀ k2, k2 ∈ keysOf (get sampleCacheK "k").2.order ↔
      k2 ∈ keysOf sampleCacheK.order) :=
  C8_get_hit_spec (fun n : Nat => n) sampleCacheK "k" ⟨"k", 1⟩
    (by decide) (by decide)

/-- C9: Get on an absent key returns found = false with an empty value and
returns the cache state completely unchanged — same length, bytes,
recency order and index. -/
theorem C9_get_miss_frame (c : Cache V) (k : String) (h : k ∉ keysOf c.order) :
    get c k = (none, c) := by
  have hf : c.order.find? (fun e2 => e2.key == k) = none := by
    rw [List.find?_eq_none]
    intro e he hbe
    exact h (mem_keysOf.mpr ⟨e, he, by simpa using hbe⟩)
  unfold get
  by_cases hc : c.index.contains k = true
  · rw [if_pos hc, hf]
  · rw [if_neg hc]

theorem C9_get_miss_frame_witness :
    get sampleCache "missing" = (none, sampleCache) :=
  C9_get_miss_frame sampleCache "missing" (by decide)

/-- C10: with `maxBytes = 0` the eviction guard is identically false, so
Add never evicts on any cache in unbounded mode and fires no callback for
any sequence of Adds; adding N entries with pairwise distinct keys to a
fresh unbounded cache leaves `Len()` equal to N. -/
theorem C10_unbounded_mode (vlen : V → Nat) (ps : List (String × V)) :
    (∀ c2 : Cache V, c2.maxBytes = 0 → ∀ (k : String) (v : V),
      add vlen c2 k v = (addCore vlen c2 k v, [])) ∧
    (addSeq vlen (new 0) ps).2 = [] ∧
    ((ps.map Prod.fst).Nodup → len (addSeq vlen (new 0) ps).1 = ps.length) := by
  refine ⟨fun c2 h k v => add_unbounded h k v,
    addSeq_unbounded_events ps (new 0) rfl, ?_⟩
  intro hnd
  have hdisj : ∀ p ∈ ps, p.1 ∉ keysOf ((new 0 : Cache V)).order := by
    intro p hp
    show p.1 ∉ keysOf ([] : List (Entry V))
    simp [keysOf]
  have h := addSeq_unbounded_length vlen ps (new 0) rfl (wf_new 0) hnd hdisj
  show (addSeq vlen (new 0) ps).1.order.length = ps.length
  rw [h]
  simp [new]

theorem C10_unbounded_mode_witness :
    (∀ c2 : Cache Nat, c2.maxBytes = 0 → ∀ (k : String) (v : Nat),
      add (fun n : Nat => n) c2 k v = (addCore (fun n : Nat => n) c2 k v, [])) ∧
    (addSeq (fun n : Nat => n) (new 0 : Cache Nat)
      [("a", 100), ("b", 200)]).2 = [] ∧
    (([("a", (100 : Nat)), ("b", 200)].map Prod.fst).Nodup →
      len (addSeq (fun n : Nat => n) (new 0 : Cache Nat)
        [("a", 100), ("b", 200)]).1 = 2) :=
  C10_unbounded_mode (fun n : Nat => n) [("a", 100), ("b", 200)]

end LRU
